import Mathlib

/-!
Verification of the character-level sentence segmentation module
(`sentence-segmentation.py`).

Texts are modelled as `List Char`, label sequences as `List Char`
(Python uses one-character strings `'0'` / `'1'` as labels), feature
vectors as `List String`.  Fallible operations (Python exceptions)
return `Except`.
-/

/-- Failure of the label encoder: a ground-truth sentence has no
occurrence in the document text (in the source this surfaces as the
lookup failure of `text.index(sent)`; the spec names it
`MissingSentenceError`). -/
inductive EncodeError where
  | missingSentence (sent : List Char)
deriving DecidableEq

/-- Failure of the label decoder: `text[i]` is accessed with
`i ≥ len(text)` (Python `IndexError`). -/
inductive DecodeError where
  | indexOutOfRange
deriving DecidableEq

deriving instance DecidableEq for Except

/-- Python `repr` of a boolean, as interpolated by `'...={0}'.format(b)`. -/
def pyBool (b : Bool) : String := if b then "True" else "False"

/-- The three property features of one character, with an offset tag.
Python's `str.lower`, `str.isupper`, `str.isnumeric` are modelled by
`Char.toLower`, `Char.isUpper`, `Char.isDigit`; they agree on the ASCII
and Cyrillic material handled in this development. -/
def charFeats (tag : String) (c : Char) : List String :=
  [tag ++ "lower=" ++ String.singleton c.toLower,
   tag ++ "isupper=" ++ pyBool c.isUpper,
   tag ++ "isnumeric=" ++ pyBool c.isDigit]

/-- `char2features(sentence, i)` from the source: features of the
character at position `i`, plus the features of up to two characters
behind and ahead when they exist.  In the source every index access is
in range (guarded by the conditionals and by the caller); the `getD`
default is never read. -/
def char2features (sentence : List Char) (i : Nat) : List String :=
  charFeats "" (sentence.getD i 'a')
  ++ (if 0 < i then charFeats "-1:" (sentence.getD (i - 1) 'a') else [])
  ++ (if 1 < i then charFeats "-2:" (sentence.getD (i - 2) 'a') else [])
  ++ (if i < sentence.length - 1 then charFeats "+1:" (sentence.getD (i + 1) 'a') else [])
  ++ (if i < sentence.length - 2 then charFeats "+2:" (sentence.getD (i + 2) 'a') else [])

/-- `sent2features(sent)` from the source: per-character feature
vectors, one for each position of `sent`. -/
def sent2features (sent : List Char) : List (List String) :=
  (List.range sent.length).map (char2features sent)

/-- Python `text.index(sent)`: the least index at which `sent` occurs
as a contiguous sublist of `text`, `none` when there is no occurrence. -/
def findSub (text pat : List Char) : Option Nat :=
  match text with
  | [] => if pat.isEmpty then some 0 else none
  | c :: t =>
    if pat.isPrefixOf (c :: t) then some 0
    else (findSub t pat).map (fun n => n + 1)

/-- Python slice assignment `labels[start:start+len] = '0' * len`
(the source only performs it with `start + len ≤ labels.length`). -/
def setRange (labels : List Char) (start len : Nat) : List Char :=
  labels.take start ++ List.replicate len '0' ++ labels.drop (start + len)

/-- The sentence-marking loop of `text2labels`: for each sentence in
order, find its first occurrence in `text` and overwrite that span of
`labels` with `'0'`; fail on a sentence with no occurrence. -/
def markSents (text : List Char) : List Char → List (List Char) → Except EncodeError (List Char)
  | labels, [] => .ok labels
  | labels, sent :: rest =>
    match findSub text sent with
    | none => .error (.missingSentence sent)
    | some start => markSents text (setRange labels start sent.length) rest

/-- The finalization step of `text2labels`: every cell that is not
`'0'` becomes `'1'`. -/
def finalizeLabel (c : Char) : Char := if c = '0' then '0' else '1'

/-- `text2labels(text, sents)` from the source: start from the list of
the text's own characters, overwrite each sentence's first-occurrence
span with `'0'`, then turn every remaining non-`'0'` cell into `'1'`. -/
def text2labels (text : List Char) (sents : List (List Char)) : Except EncodeError (List Char) :=
  (markSents text text sents).map (fun labels => labels.map finalizeLabel)

/-- The loop of `text2sentences`: `i` is the enumeration index, `cur`
the pending sentence buffer.  A label `'1'` flushes a non-empty buffer;
any other label appends `text[i]` to the buffer (an out-of-range access
is Python's `IndexError`); a non-empty buffer is flushed at the end. -/
def t2sGo (text : List Char) : Nat → List Char → List Char → Except DecodeError (List (List Char))
  | _, cur, [] => .ok (if cur.isEmpty then [] else [cur])
  | i, cur, l :: rest =>
    if l = '1' then
      if cur.isEmpty then t2sGo text (i + 1) [] rest
      else (t2sGo text (i + 1) [] rest).map (fun ss => cur :: ss)
    else
      match text[i]? with
      | none => .error .indexOutOfRange
      | some c => t2sGo text (i + 1) (cur ++ [c]) rest

/-- `text2sentences(text, labels)` from the source (the generator,
materialized in yield order). -/
def text2sentences (text labels : List Char) : Except DecodeError (List (List Char)) :=
  t2sGo text 0 [] labels

/-- A corpus document: raw text and ground-truth sentence list
(`document.raw()` / `document.raw_sents()`). -/
structure Document where
  raw : List Char
  raw_sents : List (List Char)

/-- Modelled from the spec: `train_test_split` is not defined in the
source file (the generic randomized train/test partition is the
external split collaborator of §4.4).  Its randomness is abstracted as
an explicit per-index assignment list: position `i` of the parallel
lists goes to the test side when the `i`-th flag is `true`, to the
train side otherwise (missing flags default to the train side). -/
def train_test_split {α β : Type} : List α → List β → List Bool → List α × List α × List β × List β
  | x :: xs, b :: bs, flags =>
    match train_test_split xs bs flags.tail, flags.headD false with
    | (xtr, xte, ytr, yte), true => (xtr, x :: xte, ytr, b :: yte)
    | (xtr, xte, ytr, yte), false => (x :: xtr, xte, b :: ytr, yte)
  | _, _, _ => ([], [], [], [])

/-- The document loop of `get_train_data`: thread the parallel lists
`X`, `y` through the corpus in document order, then delegate to the
split. -/
def gtdGo (assign : List Bool) (X : List (List (List String))) (y : List (List Char)) :
    List Document →
    Except EncodeError (List (List (List String)) × List (List (List String)) × List (List Char) × List (List Char))
  | [] => .ok (train_test_split X y assign)
  | d :: rest =>
    match text2labels d.raw d.raw_sents with
    | .error e => .error e
    | .ok labels => gtdGo assign (X ++ [sent2features d.raw]) (y ++ [labels]) rest

/-- `get_train_data(corpus, **kwargs)` from the source: per document,
append `sent2features(text)` and `text2labels(text, sents)` to parallel
lists, then return `train_test_split(X, y)`. -/
def get_train_data (corpus : List Document) (assign : List Bool) :
    Except EncodeError (List (List (List String)) × List (List (List String)) × List (List Char) × List (List Char)) :=
  gtdGo assign [] [] corpus

/-- The splitting loop of `text2sentences` rephrased on (character,
label) pairs; `t2sGo` agrees with it whenever the labels do not run
past the text (proved below). -/
def zGo : List Char → List (Char × Char) → List (List Char)
  | cur, [] => if cur.isEmpty then [] else [cur]
  | cur, (c, l) :: rest =>
    if l = '1' then
      if cur.isEmpty then zGo [] rest else cur :: zGo [] rest
    else zGo (cur ++ [c]) rest

/-- Interleaving of separator and sentence segments:
`assemble [p0, p1, ..., pn] [s1, ..., sn] = p0 ++ s1 ++ p1 ++ ... ++ sn ++ pn`. -/
def assemble : List (List Char) → List (List Char) → List Char
  | [], _ => []
  | sep :: _, [] => sep
  | sep :: seps, s :: sents => sep ++ s ++ assemble seps sents

/-- The label sequence a correct encoding of an `assemble`
decomposition carries: `'1'` on separator positions, `'0'` on sentence
positions. -/
def labelsOf : List (List Char) → List (List Char) → List Char
  | [], _ => []
  | sep :: _, [] => List.replicate sep.length '1'
  | sep :: seps, s :: sents =>
    List.replicate sep.length '1' ++ List.replicate s.length '0' ++ labelsOf seps sents

/-- The cell list `markSents` produces on a decomposition: sentence
spans overwritten with `'0'`, separator spans still holding the text's
own characters. -/
def preLabels : List (List Char) → List (List Char) → List Char
  | [], _ => []
  | sep :: _, [] => sep
  | sep :: seps, s :: sents => sep ++ List.replicate s.length '0' ++ preLabels seps sents

/-- Checks that each sentence's first occurrence in `text` is exactly
its own span of the decomposition; `n` is the offset of the residual
decomposition inside `text`. -/
def firstOccAt (text : List Char) : Nat → List (List Char) → List (List Char) → Bool
  | _, _, [] => true
  | n, sep :: seps, s :: sents =>
    (findSub text s == some (n + sep.length)) &&
      firstOccAt text (n + sep.length + s.length) seps sents
  | _, [], _ :: _ => false

/-- A well-behaved decomposition of `text` into sentences with
separator characters in between: the sentences tile the text in order
(`assemble`), every sentence is non-empty, consecutive sentences are
separated by at least one character, no separator character is the
digit `'0'`, and each sentence's first occurrence in the text is its
own span. -/
def goodDecomp (text : List Char) (seps sents : List (List Char)) : Bool :=
  (text == assemble seps sents) &&
  (seps.length == sents.length + 1) &&
  sents.all (fun s => !s.isEmpty) &&
  ((seps.drop 1).dropLast.all (fun sep => !sep.isEmpty)) &&
  seps.all (fun sep => sep.all (fun c => c != '0')) &&
  firstOccAt text 0 seps sents

/-- `assemble`'s text zipped with `labelsOf`'s labels, segment by
segment. -/
def taggedOf : List (List Char) → List (List Char) → List (Char × Char)
  | [], _ => []
  | sep :: _, [] => sep.map (fun c => (c, '1'))
  | sep :: seps, s :: sents =>
    sep.map (fun c => (c, '1')) ++ s.map (fun c => (c, '0')) ++ taggedOf seps sents

/-- Per-document label encoding of a whole corpus, stopping at the
first failing document (the abstraction of the `text2labels` calls the
document loop of `get_train_data` performs, used to phrase its
specification). -/
def encodeCorpus : List Document → Except EncodeError (List (List Char))
  | [] => .ok []
  | d :: rest =>
    match text2labels d.raw d.raw_sents with
    | .error e => .error e
    | .ok labels =>
      match encodeCorpus rest with
      | .error e => .error e
      | .ok ys => .ok (labels :: ys)

/-- C7: on `text = "привет. меня зовут аня."` with
`sents = ["привет.", "меня зовут аня."]`, `text2labels` produces the
23-character label sequence `"0"*7 ++ "1" ++ "0"*15`, and
`text2sentences` of the text with that label sequence yields exactly
the two sentences. -/
theorem c7_concrete_scenario :
    text2labels "привет. меня зовут аня.".data ["привет.".data, "меня зовут аня.".data]
      = .ok (List.replicate 7 '0' ++ ['1'] ++ List.replicate 15 '0') ∧
    text2sentences "привет. меня зовут аня.".data
        (List.replicate 7 '0' ++ ['1'] ++ List.replicate 15 '0')
      = .ok ["привет.".data, "меня зовут аня.".data] := by
  exact ⟨by decide, by decide⟩

/-- C8: `sent2features "ab"` has two elements; the first carries no
`-1:`/`-2:`/`+2:`-tagged feature but all three `+1:`-tagged features,
and the second carries all three `-1:`-tagged features but no
`+1:`/`+2:`/`-2:`-tagged one — out-of-range context groups are
omitted, not padded. -/
theorem c8_context_truncation :
    (sent2features ['a', 'b']).length = 2 ∧
    (((sent2features ['a', 'b']).getD 0 []).countP (fun f => "-1:".data.isPrefixOf f.data) = 0 ∧
     ((sent2features ['a', 'b']).getD 0 []).countP (fun f => "-2:".data.isPrefixOf f.data) = 0 ∧
     ((sent2features ['a', 'b']).getD 0 []).countP (fun f => "+2:".data.isPrefixOf f.data) = 0 ∧
     ((sent2features ['a', 'b']).getD 0 []).countP (fun f => "+1:".data.isPrefixOf f.data) = 3) ∧
    (((sent2features ['a', 'b']).getD 1 []).countP (fun f => "-1:".data.isPrefixOf f.data) = 3 ∧
     ((sent2features ['a', 'b']).getD 1 []).countP (fun f => "+1:".data.isPrefixOf f.data) = 0 ∧
     ((sent2features ['a', 'b']).getD 1 []).countP (fun f => "+2:".data.isPrefixOf f.data) = 0 ∧
     ((sent2features ['a', 'b']).getD 1 []).countP (fun f => "-2:".data.isPrefixOf f.data) = 0) := by
  decide

/-- C2 (code bug witness): on `text = "a0b"`, `sents = ["a", "b"]`,
position 1 is covered by no sentence span, yet `text2labels` leaves it
labeled `'0'` instead of finalizing it to `'1'`: the code re-uses the
text's own characters as the "not yet classified" marker, so a literal
`'0'` character in a separator is mistaken for an already-marked cell. -/
theorem c2_finalization_bug_eval :
    text2labels ['a', '0', 'b'] [['a'], ['b']] = .ok ['0', '0', '0'] ∧
    ['0', '0', '0'].getD 1 ' ' ≠ '1' := by
  exact ⟨by decide, by decide⟩

/-- C1 (counterexample): two sentence lists that are ordered,
non-overlapping, non-duplicated and reconstruct the text with
separator characters in between, yet fail the round-trip.  With
`text = "a0b"`, `sents = ["a", "b"]` (separator `'0'`), decoding the
encoding returns `["a0b"]`; with `text = "ab a"`,
`sents = ["ab", "a"]` (the second sentence's first occurrence lies
inside the first sentence), it returns `["ab"]`. -/
theorem c1_roundtrip_counterexample :
    (text2labels ['a', '0', 'b'] [['a'], ['b']] = .ok ['0', '0', '0'] ∧
     text2sentences ['a', '0', 'b'] ['0', '0', '0'] = .ok [['a', '0', 'b']] ∧
     [['a', '0', 'b']] ≠ [['a'], ['b']]) ∧
    (text2labels ['a', 'b', ' ', 'a'] [['a', 'b'], ['a']] = .ok ['0', '0', '1', '1'] ∧
     text2sentences ['a', 'b', ' ', 'a'] ['0', '0', '1', '1'] = .ok [['a', 'b']] ∧
     [['a', 'b']] ≠ [['a', 'b'], ['a']]) := by
  exact ⟨⟨by decide, by decide, by decide⟩, ⟨by decide, by decide, by decide⟩⟩

/-- C4 (counterexample): `text2sentences` does not check lengths — on
`text = "ab"` with the one-label sequence `"0"` it silently returns
`["a"]` instead of failing. -/
theorem c4_no_length_check_counterexample :
    (['0'] : List Char).length ≠ (['a', 'b'] : List Char).length ∧
    text2sentences ['a', 'b'] ['0'] = .ok [['a']] := by
  exact ⟨by decide, by decide⟩

theorem isPrefixOf_length_le : ∀ {pat text : List Char},
    pat.isPrefixOf text = true → pat.length ≤ text.length
  | [], _, _ => Nat.zero_le _
  | _ :: _, [], h => by simp [List.isPrefixOf] at h
  | a :: as, b :: bs, h => by
    simp only [List.isPrefixOf, Bool.and_eq_true] at h
    simpa using isPrefixOf_length_le h.2

theorem findSub_bound : ∀ {text pat : List Char} {st : Nat},
    findSub text pat = some st → st + pat.length ≤ text.length
  | [], pat, st, h => by
    simp only [findSub] at h
    split at h
    · injection h with h
      subst h
      simpa [List.isEmpty_iff] using ‹pat.isEmpty = true›
    · cases h
  | c :: t, pat, st, h => by
    simp only [findSub] at h
    split at h
    · injection h with h
      subst h
      simpa using isPrefixOf_length_le ‹pat.isPrefixOf (c :: t) = true›
    · obtain ⟨n, hn, rfl⟩ := Option.map_eq_some'.mp h
      have := findSub_bound hn
      simp only [List.length_cons]
      omega

theorem setRange_length {labels : List Char} {start len : Nat}
    (h : start + len ≤ labels.length) :
    (setRange labels start len).length = labels.length := by
  simp only [setRange, List.length_append, List.length_take, List.length_replicate,
    List.length_drop]
  omega

theorem markSents_ok_length {text : List Char} {sents : List (List Char)} :
    ∀ {labels : List Char}, labels.length = text.length →
    (∀ s ∈ sents, ∃ st, findSub text s = some st) →
    ∃ out, markSents text labels sents = .ok out ∧ out.length = text.length := by
  induction sents with
  | nil => exact fun hlen _ => ⟨_, rfl, hlen⟩
  | cons s rest ih =>
    intro labels hlen hocc
    obtain ⟨st, hst⟩ := hocc s (List.mem_cons_self s rest)
    have hb := findSub_bound hst
    have hlen' : (setRange labels st s.length).length = text.length := by
      rw [setRange_length (by omega)]
      exact hlen
    obtain ⟨out, hout, holen⟩ := ih hlen' (fun t ht => hocc t (List.mem_cons_of_mem _ ht))
    exact ⟨out, by simp [markSents, hst, hout], holen⟩

/-- C6: the feature sequence has exactly one feature vector per
character of the text, and whenever every sentence occurs in the text
the encoder succeeds with a label sequence of the text's length. -/
theorem c6_length_invariant (text : List Char) (sents : List (List Char))
    (hocc : ∀ s ∈ sents, ∃ st, findSub text s = some st) :
    (sent2features text).length = text.length ∧
    ∃ labels, text2labels text sents = .ok labels ∧ labels.length = text.length := by
  constructor
  · simp [sent2features]
  · obtain ⟨out, hout, holen⟩ := markSents_ok_length rfl hocc
    exact ⟨out.map finalizeLabel, by simp [text2labels, hout, Except.map], by simp [holen]⟩

/-- Witness for C6 at `text = "ab"`, `sents = ["b"]`. -/
theorem c6_length_invariant_witness :
    (sent2features ['a', 'b']).length = ['a', 'b'].length ∧
    ∃ labels, text2labels ['a', 'b'] [['b']] = .ok labels ∧
      labels.length = ['a', 'b'].length :=
  c6_length_invariant ['a', 'b'] [['b']]
    (fun s hs => by
      have hs' : s = ['b'] := by simpa using hs
      exact ⟨1, by rw [hs']; decide⟩)

theorem markSents_missing {text : List Char} {sents : List (List Char)} :
    ∀ {labels : List Char}, (∃ s ∈ sents, findSub text s = none) →
    ∃ s, markSents text labels sents = .error (.missingSentence s) := by
  induction sents with
  | nil => intro _ h; simp at h
  | cons s rest ih =>
    intro labels h
    cases hf : findSub text s with
    | none => exact ⟨s, by simp [markSents, hf]⟩
    | some st =>
      obtain ⟨s', hs', hnone⟩ := h
      rcases List.mem_cons.mp hs' with rfl | hmem
      · rw [hf] at hnone; cases hnone
      · obtain ⟨s'', h''⟩ := @ih (setRange labels st s.length) ⟨s', hmem, hnone⟩
        exact ⟨s'', by simp [markSents, hf, h'']⟩

/-- C3: whenever some sentence of the list has no occurrence in the
text, `text2labels` fails with a missing-sentence error (it never
silently mislabels). -/
theorem c3_missing_sentence_error (text : List Char) (sents : List (List Char))
    (h : ∃ s ∈ sents, findSub text s = none) :
    ∃ s, text2labels text sents = .error (.missingSentence s) := by
  obtain ⟨s, hs⟩ := @markSents_missing text sents text h
  exact ⟨s, by simp [text2labels, hs, Except.map]⟩

/-- Witness for C3: `encode("abc", ["xyz"])` fails with the
missing-sentence error. -/
theorem c3_missing_sentence_error_witness :
    ∃ s, text2labels ['a', 'b', 'c'] [['x', 'y', 'z']] = .error (.missingSentence s) :=
  c3_missing_sentence_error ['a', 'b', 'c'] [['x', 'y', 'z']]
    ⟨['x', 'y', 'z'], by decide, by decide⟩

theorem t2sGo_eq_zGo {text : List Char} : ∀ {labels : List Char} {i : Nat} {cur : List Char},
    i + labels.length ≤ text.length →
    t2sGo text i cur labels = .ok (zGo cur ((text.drop i).zip labels)) := by
  intro labels
  induction labels with
  | nil => intro i cur _; simp [t2sGo, zGo]
  | cons l rest ih =>
    intro i cur h
    simp only [List.length_cons] at h
    have hi : i < text.length := by omega
    rw [List.drop_eq_getElem_cons hi, List.zip_cons_cons]
    by_cases hl : l = '1'
    · subst hl
      by_cases hc : cur.isEmpty
      · simp [t2sGo, zGo, hc, @ih (i + 1) [] (by omega)]
      · simp [t2sGo, zGo, hc, @ih (i + 1) [] (by omega), Except.map]
    · simp [t2sGo, zGo, hl, List.getElem?_eq_getElem hi,
        @ih (i + 1) (cur ++ [text[i]]) (by omega)]

theorem zGo_flatten : ∀ (ps : List (Char × Char)) (cur : List Char),
    (zGo cur ps).flatten = cur ++ (ps.filter (fun p => p.2 != '1')).map Prod.fst := by
  intro ps
  induction ps with
  | nil =>
    intro cur
    by_cases hc : cur.isEmpty
    · simp [zGo, hc, List.isEmpty_iff.mp hc]
    · simp [zGo, hc]
  | cons p rest ih =>
    intro cur
    obtain ⟨c, l⟩ := p
    by_cases hl : l = '1'
    · subst hl
      by_cases hc : cur.isEmpty
      · simp [zGo, hc, ih, List.isEmpty_iff.mp hc]
      · simp [zGo, hc, ih]
    · simp [zGo, hl, ih, List.append_assoc]

/-- C5: on a label sequence of the text's length over the alphabet
`{'0', '1'}`, decoding succeeds and the concatenation of the emitted
sentences is exactly the subsequence of the text's characters labeled
`'0'`. -/
theorem c5_decode_never_invents_characters (text labels : List Char)
    (hlen : labels.length = text.length)
    (halpha : ∀ l ∈ labels, l = '0' ∨ l = '1') :
    ∃ ss, text2sentences text labels = .ok ss ∧
      ss.flatten = ((text.zip labels).filter (fun p => p.2 == '0')).map Prod.fst := by
  refine ⟨zGo [] (text.zip labels), ?_, ?_⟩
  · have h0 := @t2sGo_eq_zGo text labels 0 [] (by omega)
    simpa [text2sentences] using h0
  · rw [zGo_flatten]
    simp only [List.nil_append]
    have hfeq : (text.zip labels).filter (fun p => p.2 != '1')
        = (text.zip labels).filter (fun p => p.2 == '0') := by
      apply List.filter_congr
      intro p hp
      obtain ⟨c, l⟩ := p
      rcases halpha l (List.of_mem_zip hp).2 with h | h <;> simp [h]
    rw [hfeq]

/-- Witness for C5 at `text = "ab"`, `labels = "01"`. -/
theorem c5_decode_never_invents_characters_witness :
    ∃ ss, text2sentences ['a', 'b'] ['0', '1'] = .ok ss ∧
      ss.flatten = (((['a', 'b'] : List Char).zip ['0', '1']).filter
        (fun p => p.2 == '0')).map Prod.fst :=
  c5_decode_never_invents_characters ['a', 'b'] ['0', '1'] (by decide)
    (fun l hl => by
      rcases List.mem_cons.mp hl with rfl | hl'
      · exact Or.inl rfl
      · exact Or.inr (by simpa using hl'))

theorem zGo_norm : ∀ (ps : List (Char × Char)) (cur : List Char),
    zGo cur (ps.map (Prod.map id (fun l => if l = '1' then '1' else '0'))) = zGo cur ps := by
  intro ps
  induction ps with
  | nil => intro cur; rfl
  | cons p rest ih =>
    intro cur
    obtain ⟨c, l⟩ := p
    by_cases hl : l = '1'
    · subst hl; simp [zGo, Prod.map, ih]
    · simp [zGo, Prod.map, hl, ih]

/-- C10: decoding tests labels against `'1'` only — any other label
value (also outside the `{'0','1'}` alphabet) is treated as
in-sentence.  Normalizing every non-`'1'` label to `'0'` yields the
same result, and the emitted characters are exactly those whose label
differs from `'1'`. -/
theorem c10_decode_tests_not_boundary (text labels : List Char)
    (hlen : labels.length = text.length) :
    ∃ ss, text2sentences text labels = .ok ss ∧
      text2sentences text (labels.map (fun l => if l = '1' then '1' else '0')) = .ok ss ∧
      ss.flatten = ((text.zip labels).filter (fun p => p.2 != '1')).map Prod.fst := by
  refine ⟨zGo [] (text.zip labels), ?_, ?_, ?_⟩
  · have h0 := @t2sGo_eq_zGo text labels 0 [] (by omega)
    simpa [text2sentences] using h0
  · have h1 := @t2sGo_eq_zGo text (labels.map (fun l => if l = '1' then '1' else '0')) 0 []
      (by simpa using Nat.le_of_eq hlen)
    rw [List.zip_map_right, zGo_norm] at h1
    simpa [text2sentences] using h1
  · rw [zGo_flatten]
    simp

/-- Witness for C10 at `text = "abc"`, `labels = "0x1"` (the label
`'x'` is outside the alphabet and is treated as in-sentence). -/
theorem c10_decode_tests_not_boundary_witness :
    ∃ ss, text2sentences ['a', 'b', 'c'] ['0', 'x', '1'] = .ok ss ∧
      text2sentences ['a', 'b', 'c'] ((['0', 'x', '1'] : List Char).map
        (fun l => if l = '1' then '1' else '0')) = .ok ss ∧
      ss.flatten = (((['a', 'b', 'c'] : List Char).zip ['0', 'x', '1']).filter
        (fun p => p.2 != '1')).map Prod.fst :=
  c10_decode_tests_not_boundary ['a', 'b', 'c'] ['0', 'x', '1'] (by decide)

theorem except_map_error_iff {ε α β : Type} (f : α → β) (x : Except ε α) :
    (∃ e, x.map f = .error e) ↔ (∃ e, x = .error e) := by
  cases x <;> simp [Except.map]

theorem t2sGo_error_iff {text : List Char} : ∀ {labels : List Char} {i : Nat} {cur : List Char},
    (∃ e, t2sGo text i cur labels = .error e) ↔
      ∃ j l, labels[j]? = some l ∧ l ≠ '1' ∧ text.length ≤ i + j := by
  intro labels
  induction labels with
  | nil => intro i cur; simp [t2sGo]
  | cons l rest ih =>
    intro i cur
    by_cases hl : l = '1'
    · subst hl
      have heq : (∃ e, t2sGo text i cur ('1' :: rest) = .error e)
          ↔ (∃ e, t2sGo text (i + 1) [] rest = .error e) := by
        by_cases hc : cur.isEmpty
        · simp [t2sGo, hc]
        · simp only [t2sGo, hc, if_true, if_false, Bool.false_eq_true, if_neg]
          exact except_map_error_iff _ _
      rw [heq, @ih (i + 1) []]
      constructor
      · rintro ⟨j, l', hj, hne, hle⟩
        exact ⟨j + 1, l', by simpa using hj, hne, by omega⟩
      · rintro ⟨j, l', hj, hne, hle⟩
        cases j with
        | zero =>
          simp only [List.getElem?_cons_zero, Option.some.injEq] at hj
          exact absurd hj.symm hne
        | succ k => exact ⟨k, l', by simpa using hj, hne, by omega⟩
    · cases hti : text[i]? with
      | none =>
        have hlen : text.length ≤ i := List.getElem?_eq_none_iff.mp hti
        constructor
        · intro _; exact ⟨0, l, by simp, hl, by omega⟩
        · intro _; exact ⟨.indexOutOfRange, by simp [t2sGo, hl, hti]⟩
      | some c =>
        have hi : i < text.length := by
          by_contra hcon
          rw [List.getElem?_eq_none (by omega)] at hti
          cases hti
        have heq : (∃ e, t2sGo text i cur (l :: rest) = .error e)
            ↔ (∃ e, t2sGo text (i + 1) (cur ++ [c]) rest = .error e) := by
          simp [t2sGo, hl, hti]
        rw [heq, @ih (i + 1) (cur ++ [c])]
        constructor
        · rintro ⟨j, l', hj, hne, hle⟩
          exact ⟨j + 1, l', by simpa using hj, hne, by omega⟩
        · rintro ⟨j, l', hj, hne, hle⟩
          cases j with
          | zero =>
            simp only [List.getElem?_cons_zero, Option.some.injEq] at hj
            subst hj
            omega
          | succ k => exact ⟨k, l', by simpa using hj, hne, by omega⟩

/-- C4 (amended): `text2sentences` performs no length check.  It fails
(with the index error) exactly when some label at a position at or
beyond the text's end differs from `'1'`; in particular label
sequences no longer than the text always produce a sentence sequence. -/
theorem c4_amended_no_length_check (text labels : List Char) :
    ((∃ e, text2sentences text labels = .error e) ↔
      ∃ i l, labels[i]? = some l ∧ l ≠ '1' ∧ text.length ≤ i) ∧
    (labels.length ≤ text.length → ∃ ss, text2sentences text labels = .ok ss) := by
  have h := @t2sGo_error_iff text labels 0 []
  simp only [Nat.zero_add] at h
  have h' : (∃ e, text2sentences text labels = .error e) ↔
      ∃ i l, labels[i]? = some l ∧ l ≠ '1' ∧ text.length ≤ i := by
    simpa [text2sentences] using h
  refine ⟨h', fun hle => ?_⟩
  cases hres : text2sentences text labels with
  | ok ss => exact ⟨ss, rfl⟩
  | error e =>
    obtain ⟨i, l, hil, _, hlen⟩ := h'.mp ⟨e, hres⟩
    have hilen : i < labels.length := by
      by_contra hcon
      rw [List.getElem?_eq_none (by omega)] at hil
      cases hil
    omega

/-- Witness for C4 (amended): with `text = "ab"` and the shorter label
sequence `"0"`, decoding produces a sentence sequence. -/
theorem c4_amended_no_length_check_witness :
    ∃ ss, text2sentences ['a', 'b'] ['0'] = .ok ss :=
  (c4_amended_no_length_check ['a', 'b'] ['0']).2 (by decide)

theorem gtdGo_spec (assign : List Bool) :
    ∀ (corpus : List Document) (X : List (List (List String))) (y0 y : List (List Char)),
    encodeCorpus corpus = .ok y →
    gtdGo assign X y0 corpus
      = .ok (train_test_split (X ++ corpus.map (fun d => sent2features d.raw)) (y0 ++ y) assign) := by
  intro corpus
  induction corpus with
  | nil =>
    intro X y0 y h
    simp only [encodeCorpus] at h
    injection h with h
    subst h
    simp [gtdGo]
  | cons d rest ih =>
    intro X y0 y h
    simp only [encodeCorpus] at h
    cases hd : text2labels d.raw d.raw_sents with
    | error e => rw [hd] at h; cases h
    | ok labels =>
      rw [hd] at h
      cases hrest : encodeCorpus rest with
      | error e => rw [hrest] at h; cases h
      | ok ys =>
        rw [hrest] at h
        injection h with h
        subst h
        have hrec := ih (X ++ [sent2features d.raw]) (y0 ++ [labels]) ys hrest
        simp only [gtdGo, hd]
        rw [hrec]
        simp [List.append_assoc]

theorem train_test_split_pairing {α β : Type} :
    ∀ (X : List α) (y : List β) (assign : List Bool) (xtr xte : List α) (ytr yte : List β),
    train_test_split X y assign = (xtr, xte, ytr, yte) →
    List.Sublist (xtr.zip ytr) (X.zip y) ∧ List.Sublist (xte.zip yte) (X.zip y) := by
  intro X
  induction X with
  | nil =>
    intro y assign xtr xte ytr yte h
    simp only [train_test_split, Prod.mk.injEq] at h
    obtain ⟨rfl, rfl, rfl, rfl⟩ := h
    simp
  | cons x xs ih =>
    intro y assign xtr xte ytr yte h
    cases y with
    | nil =>
      simp only [train_test_split, Prod.mk.injEq] at h
      obtain ⟨rfl, rfl, rfl, rfl⟩ := h
      simp
    | cons b bs =>
      rcases hrec : train_test_split xs bs assign.tail with ⟨xtr', xte', ytr', yte'⟩
      obtain ⟨h1, h2⟩ := ih bs assign.tail xtr' xte' ytr' yte' hrec
      simp only [train_test_split, hrec] at h
      cases hflag : assign.headD false <;> rw [hflag] at h <;>
        simp only [Prod.mk.injEq] at h <;> obtain ⟨rfl, rfl, rfl, rfl⟩ := h <;>
        rw [List.zip_cons_cons]
      · exact ⟨List.Sublist.cons₂ _ h1, List.Sublist.cons _ h2⟩
      · exact ⟨List.Sublist.cons _ h1, List.Sublist.cons₂ _ h2⟩

/-- C9: the dataset builder appends each document's feature sequence
and label sequence to parallel lists in document order, delegates to
the generic partition `train_test_split` over those lists, and returns
its four-way split; the split pairs train (and test) features with the
labels of the same document — each zipped train/test pair list is a
sublist of the document-ordered pair list. -/
theorem c9_dataset_builder (corpus : List Document) (assign : List Bool)
    (y : List (List Char)) (xtr xte : List (List (List String))) (ytr yte : List (List Char))
    (henc : encodeCorpus corpus = .ok y)
    (hsplit : train_test_split (corpus.map (fun d => sent2features d.raw)) y assign
      = (xtr, xte, ytr, yte)) :
    get_train_data corpus assign = .ok (xtr, xte, ytr, yte) ∧
    List.Sublist (xtr.zip ytr) ((corpus.map (fun d => sent2features d.raw)).zip y) ∧
    List.Sublist (xte.zip yte) ((corpus.map (fun d => sent2features d.raw)).zip y) := by
  have h := gtdGo_spec assign corpus [] [] y henc
  simp only [List.nil_append] at h
  obtain ⟨h1, h2⟩ := train_test_split_pairing _ _ _ _ _ _ _ hsplit
  refine ⟨?_, h1, h2⟩
  rw [get_train_data, h, hsplit]

/-- Witness for C9 on the one-document corpus `("a b", ["a", "b"])`
with the single index assigned to the test side. -/
theorem c9_dataset_builder_witness :
    get_train_data [⟨['a', ' ', 'b'], [['a'], ['b']]⟩] [true]
      = .ok ([], [sent2features ['a', ' ', 'b']], [], [['0', '1', '0']]) ∧
    List.Sublist ((([] : List (List (List String)))).zip ([] : List (List Char)))
      (([sent2features ['a', ' ', 'b']]).zip [['0', '1', '0']]) ∧
    List.Sublist (([sent2features ['a', ' ', 'b']]).zip [['0', '1', '0']])
      (([sent2features ['a', ' ', 'b']]).zip [['0', '1', '0']]) :=
  c9_dataset_builder [⟨['a', ' ', 'b'], [['a'], ['b']]⟩] [true] [['0', '1', '0']]
    [] [sent2features ['a', ' ', 'b']] [] [['0', '1', '0']] (by decide) (by decide)

theorem markSents_tiled {text : List Char} :
    ∀ (sents seps : List (List Char)) (L : List Char),
    seps.length = sents.length + 1 →
    firstOccAt text L.length seps sents = true →
    markSents text (L ++ assemble seps sents) sents = .ok (L ++ preLabels seps sents) := by
  intro sents
  induction sents with
  | nil =>
    intro seps L hlen _
    cases seps with
    | nil => cases hlen
    | cons sep seps' =>
      cases seps' with
      | nil => simp [markSents, assemble, preLabels]
      | cons sep2 t => simp at hlen
  | cons s rest ih =>
    intro seps L hlen hocc
    cases seps with
    | nil => cases hlen
    | cons sep seps' =>
      have hlen' : seps'.length = rest.length + 1 := by simpa using hlen
      simp only [firstOccAt, Bool.and_eq_true, beq_iff_eq] at hocc
      obtain ⟨hfind, hocc'⟩ := hocc
      have e1 : L ++ assemble (sep :: seps') (s :: rest)
          = ((L ++ sep) ++ s) ++ assemble seps' rest := by
        simp [assemble, List.append_assoc]
      have hset : setRange (L ++ assemble (sep :: seps') (s :: rest))
          (L.length + sep.length) s.length
          = ((L ++ sep) ++ List.replicate s.length '0') ++ assemble seps' rest := by
        rw [setRange, e1]
        have htake : List.take (L.length + sep.length)
            (((L ++ sep) ++ s) ++ assemble seps' rest) = L ++ sep := by
          rw [List.append_assoc (L ++ sep) s (assemble seps' rest)]
          exact List.take_left' (by simp)
        have hdrop : List.drop (L.length + sep.length + s.length)
            (((L ++ sep) ++ s) ++ assemble seps' rest) = assemble seps' rest :=
          List.drop_left' (by simp [Nat.add_assoc])
        rw [htake, hdrop, List.append_assoc]
      have hrec := ih seps' (L ++ sep ++ List.replicate s.length '0')
        (by simpa using hlen)
        (by
          have : (L ++ sep ++ List.replicate s.length '0').length
              = L.length + sep.length + s.length := by
            simp only [List.length_append, List.length_replicate]
          rw [this]
          exact hocc')
      simp only [markSents, hfind]
      rw [hset, hrec]
      simp [preLabels, List.append_assoc]

theorem map_finalize_sep {sep : List Char} (h : ∀ c ∈ sep, c ≠ '0') :
    sep.map finalizeLabel = List.replicate sep.length '1' := by
  induction sep with
  | nil => rfl
  | cons c t ih =>
    simp only [List.map_cons, List.length_cons, List.replicate_succ]
    rw [show finalizeLabel c = '1' from by
        simp [finalizeLabel, h c (List.mem_cons_self c t)],
      ih (fun c' hc' => h c' (List.mem_cons_of_mem _ hc'))]

theorem map_finalize_preLabels :
    ∀ (sents seps : List (List Char)),
    seps.length = sents.length + 1 →
    (∀ sep ∈ seps, ∀ c ∈ sep, c ≠ '0') →
    (preLabels seps sents).map finalizeLabel = labelsOf seps sents := by
  intro sents
  induction sents with
  | nil =>
    intro seps hlen h0
    cases seps with
    | nil => cases hlen
    | cons sep seps' =>
      cases seps' with
      | nil =>
        simp only [preLabels, labelsOf]
        exact map_finalize_sep (h0 sep (List.mem_cons_self _ _))
      | cons sep2 t => simp at hlen
  | cons s rest ih =>
    intro seps hlen h0
    cases seps with
    | nil => cases hlen
    | cons sep seps' =>
      simp only [preLabels, labelsOf, List.map_append]
      rw [map_finalize_sep (h0 sep (List.mem_cons_self _ _)),
        ih seps' (by simpa using hlen) (fun p hp => h0 p (List.mem_cons_of_mem _ hp))]
      simp [List.map_replicate, finalizeLabel]

theorem encode_assemble {text : List Char} {seps sents : List (List Char)}
    (htext : text = assemble seps sents)
    (hlen : seps.length = sents.length + 1)
    (hocc : firstOccAt text 0 seps sents = true)
    (h0 : ∀ sep ∈ seps, ∀ c ∈ sep, c ≠ '0') :
    text2labels text sents = .ok (labelsOf seps sents) := by
  subst htext
  have hmark := markSents_tiled sents seps [] hlen (by simpa using hocc)
  simp only [List.nil_append] at hmark
  rw [text2labels, hmark, Except.map]
  rw [map_finalize_preLabels sents seps hlen h0]

theorem labelsOf_length : ∀ (seps sents : List (List Char)),
    (labelsOf seps sents).length = (assemble seps sents).length
  | [], _ => rfl
  | _ :: _, [] => by simp [labelsOf, assemble]
  | sep :: seps, s :: sents => by
    simp [labelsOf, assemble, labelsOf_length seps sents]

theorem zip_replicate_self : ∀ (l : List Char) (a : Char),
    l.zip (List.replicate l.length a) = l.map (fun c => (c, a))
  | [], _ => rfl
  | c :: t, a => by
    simp [List.replicate_succ, zip_replicate_self t a]

theorem zip_assemble_labelsOf : ∀ (seps sents : List (List Char)),
    (assemble seps sents).zip (labelsOf seps sents) = taggedOf seps sents
  | [], _ => rfl
  | sep :: _, [] => by
    simp only [assemble, labelsOf, taggedOf]
    exact zip_replicate_self sep '1'
  | sep :: seps, s :: sents => by
    simp only [assemble, labelsOf, taggedOf]
    rw [List.zip_append (by simp), List.zip_append (by simp),
      zip_replicate_self, zip_replicate_self, zip_assemble_labelsOf seps sents]

theorem zGo_boundary_skip : ∀ (sep : List Char) (ps : List (Char × Char)),
    zGo [] (sep.map (fun c => (c, '1')) ++ ps) = zGo [] ps
  | [], _ => rfl
  | c :: t, ps => by
    simp [zGo, zGo_boundary_skip t ps]

theorem zGo_sentence : ∀ (s cur : List Char) (ps : List (Char × Char)),
    zGo cur (s.map (fun c => (c, '0')) ++ ps) = zGo (cur ++ s) ps
  | [], cur, ps => by simp
  | c :: t, cur, ps => by
    simp [zGo, zGo_sentence t (cur ++ [c]) ps, List.append_assoc]

theorem zGo_taggedOf : ∀ (sents seps : List (List Char)),
    seps.length = sents.length + 1 →
    (∀ s ∈ sents, ¬s.isEmpty) →
    (∀ sep ∈ (seps.drop 1).dropLast, ¬sep.isEmpty) →
    zGo [] (taggedOf seps sents) = sents := by
  intro sents
  induction sents with
  | nil =>
    intro seps hlen _ _
    cases seps with
    | nil => cases hlen
    | cons sep seps' =>
      cases seps' with
      | nil =>
        have h := zGo_boundary_skip sep []
        simpa [taggedOf, zGo] using h
      | cons sep2 t => simp at hlen
  | cons s rest ih =>
    intro seps hlen hse hsep
    cases seps with
    | nil => cases hlen
    | cons sep seps' =>
      have hlen' : seps'.length = rest.length + 1 := by simpa using hlen
      have hne : ¬s.isEmpty := hse s (List.mem_cons_self _ _)
      simp only [taggedOf, List.append_assoc]
      rw [zGo_boundary_skip, zGo_sentence]
      simp only [List.nil_append]
      cases rest with
      | nil =>
        cases seps' with
        | nil => cases hlen'
        | cons sepLast t =>
          cases t with
          | nil =>
            cases sepLast with
            | nil => simp [taggedOf, zGo, hne]
            | cons c tl =>
              have h2 := zGo_boundary_skip tl []
              simp only [List.append_nil] at h2
              simp [taggedOf, zGo, hne, h2]
          | cons => simp at hlen'
      | cons r rest' =>
        cases seps' with
        | nil => cases hlen'
        | cons sep1 t =>
          have hlen'' : t.length = rest'.length + 1 := by simpa using hlen'
          have ht : t ≠ [] := by
            cases t with
            | nil => simp at hlen''
            | cons => simp
          have hs1 : ¬sep1.isEmpty := by
            apply hsep sep1
            simp only [List.drop_succ_cons, List.drop_zero]
            rw [List.dropLast_cons_of_ne_nil ht]
            exact List.mem_cons_self _ _
          obtain ⟨c, tl, rfl⟩ : ∃ c tl, sep1 = c :: tl := by
            cases sep1 with
            | nil => exact absurd rfl hs1
            | cons c tl => exact ⟨c, tl, rfl⟩
          have hihsep : ∀ sep' ∈ ((([] : List Char) :: t).drop 1).dropLast, ¬sep'.isEmpty := by
            intro sep' hsep'
            apply hsep sep'
            simp only [List.drop_succ_cons, List.drop_zero] at hsep' ⊢
            rw [List.dropLast_cons_of_ne_nil ht]
            exact List.mem_cons_of_mem _ hsep'
          have hih := ih ([] :: t) (by simpa using hlen'')
            (fun s' hs' => hse s' (List.mem_cons_of_mem _ hs')) hihsep
          simp only [taggedOf, List.map_nil, List.nil_append] at hih
          simp only [taggedOf, List.map_cons, List.cons_append, List.append_assoc]
          rw [show zGo s ((c, '1') :: (List.map (fun c => (c, '1')) tl
              ++ (List.map (fun c => (c, '0')) r ++ taggedOf t rest')))
            = s :: zGo [] (List.map (fun c => (c, '1')) tl
              ++ (List.map (fun c => (c, '0')) r ++ taggedOf t rest')) from by
            simp [zGo, hne]]
          rw [zGo_boundary_skip]
          rw [hih]

theorem decode_assemble {seps sents : List (List Char)}
    (hlen : seps.length = sents.length + 1)
    (hse : ∀ s ∈ sents, ¬s.isEmpty)
    (hsep : ∀ sep ∈ (seps.drop 1).dropLast, ¬sep.isEmpty) :
    text2sentences (assemble seps sents) (labelsOf seps sents) = .ok sents := by
  have hl := labelsOf_length seps sents
  have h := @t2sGo_eq_zGo (assemble seps sents) (labelsOf seps sents) 0 [] (by omega)
  rw [List.drop_zero, zip_assemble_labelsOf, zGo_taggedOf sents seps hlen hse hsep] at h
  exact h

/-- C1 (amended): the round-trip `decode (text, encode (text, sents)) = sents`
holds for every decomposition of the text into the sentence list with
separator characters in between that additionally satisfies: every
sentence is non-empty, consecutive sentences are separated by at least
one character, no separator character is the digit `'0'`, and each
sentence's first occurrence in the text is its own span of the
decomposition (`goodDecomp`).  The two extra conditions are forced by
the counterexamples: a `'0'` separator character survives finalization,
and a sentence whose string occurs earlier in the text is marked at
that earlier occurrence. -/
theorem c1_roundtrip_amended (text : List Char) (seps sents : List (List Char))
    (h : goodDecomp text seps sents = true) :
    ∃ labels, text2labels text sents = .ok labels ∧
      text2sentences text labels = .ok sents := by
  simp only [goodDecomp, Bool.and_eq_true, beq_iff_eq, List.all_eq_true] at h
  obtain ⟨⟨⟨⟨⟨htext, hlen⟩, hse⟩, hsep⟩, h0⟩, hocc⟩ := h
  subst htext
  refine ⟨labelsOf seps sents, ?_, ?_⟩
  · exact encode_assemble rfl hlen hocc
      (fun sep hs c hc => by simpa using h0 sep hs c hc)
  · exact decode_assemble hlen
      (fun s hs => by simpa using hse s hs)
      (fun sep hs => by simpa using hsep sep hs)

/-- Witness for C1 (amended) on `text = "ab cd"`,
`sents = ["ab", "cd"]`, separators `["", " ", ""]`. -/
theorem c1_roundtrip_amended_witness :
    goodDecomp ['a', 'b', ' ', 'c', 'd'] [[], [' '], []] [['a', 'b'], ['c', 'd']] = true ∧
    ∃ labels,
      text2labels ['a', 'b', ' ', 'c', 'd'] [['a', 'b'], ['c', 'd']] = .ok labels ∧
      text2sentences ['a', 'b', ' ', 'c', 'd'] labels = .ok [['a', 'b'], ['c', 'd']] :=
  ⟨by decide,
    c1_roundtrip_amended ['a', 'b', ' ', 'c', 'd'] [[], [' '], []] [['a', 'b'], ['c', 'd']]
      (by decide)⟩
